import Mathlib

/-!
# Verification of the ci_doctor analysis core

A shallow embedding, in Lean 4, of the analysis pipeline of the
`ci_doctor` tool (`src/ci_doctor/utils.py`, `src/ci_doctor/analysis.py`):

* URL parsing (`parse_github_run_url`),
* duration and median statistics (`duration_ms`, `median_ms`),
* the log-excerpt extractor (`extract_failing_step_logs`),
* the suspect generator (`gen_suspects`),
* the baseline scan and cancellation-reason inference from `analyze`.

Modelling conventions:

* ISO-8601 timestamps are represented by their value in milliseconds since
  the epoch (an `Int`), so `iso_to_dt` composed with subtraction and
  `duration_ms` becomes plain integer subtraction.  Python float arithmetic
  in `dur > baseline * 1.5` is modelled exactly as `2 * dur > 3 * baseline`.
* Python `//` (floor division) on integers is `Int.fdiv`.
* Python exceptions are modelled by `Except`/`Option` results.
* A ZIP byte blob is represented by its parse outcome: `none` for a blob the
  ZIP reader rejects (corrupt archive), `some entries` for a readable one;
  each entry carries its name and its raw bytes.
* Strings are treated as sequences of characters, and the string
  operations are computed on those character lists (`pyLower`, `pySplitChar`,
  `strContains`, ...), so that every definition evaluates by reduction.
  The regexes in the source contain only literal characters, `\d+`, an
  unescaped `.` (any character except a newline) and `$` (end of string or
  just before a final newline); they are translated accordingly.
-/

namespace CIDoctor

/-! ## String helpers (Python `in`, `str.lower`, etc.) -/

/-- `listIsInfix needle hay`: `needle` occurs as a contiguous sublist of `hay`.
Models Python's `needle in hay` on strings (via their character lists). -/
def listIsInfix (needle : List Char) : List Char → Bool
  | [] => needle.isEmpty
  | c :: rest => needle.isPrefixOf (c :: rest) || listIsInfix needle rest

/-- Python `needle in hay` for strings. -/
def strContains (hay needle : String) : Bool :=
  listIsInfix needle.data hay.data

/-- Python `s.lower()` (ASCII model), computed on the character list. -/
def pyLower (s : String) : String :=
  String.mk (s.data.map Char.toLower)

/-- Python `s.endswith(post)`, computed on the character lists. -/
def pyEndsWith (s post : String) : Bool :=
  post.data.reverse.isPrefixOf s.data.reverse

/-- Python `c in s` for a single character. -/
def pyContainsChar (s : String) (c : Char) : Bool :=
  s.data.contains c

/-- Is the string empty (Python falsiness of a string)? -/
def pyIsEmpty (s : String) : Bool :=
  s.data.isEmpty

/-- Helper for `pySplitChar`: `cur` holds the current chunk reversed. -/
def splitChAux (sep : Char) : List Char → List Char → List String
  | [], cur => [String.mk cur.reverse]
  | c :: rest, cur =>
    if c = sep then String.mk cur.reverse :: splitChAux sep rest []
    else splitChAux sep rest (c :: cur)

/-- Python `s.split(sep)` for a one-character separator. -/
def pySplitChar (sep : Char) (s : String) : List String :=
  splitChAux sep s.data []

/-- Lexicographic comparison of character lists by code point, as Python
compares strings. -/
def charListLE : List Char → List Char → Bool
  | [], _ => true
  | _ :: _, [] => false
  | a :: as, b :: bs =>
    if a < b then true
    else if b < a then false
    else charListLE as bs

/-- Python `name.split('/')[-1] if '/' in name else name`. -/
def pyBasename (nm : String) : String :=
  (pySplitChar '/' nm).getLastD nm

/-- Python `s.replace(" ", "_")`. -/
def spaceToUnderscore (s : String) : String :=
  String.mk (s.data.map (fun c => if c = ' ' then '_' else c))

/-! ## Python `int()` (decimal string to integer)

Model of CPython `int(s)` for ASCII input: optional surrounding whitespace,
an optional sign, then a nonempty digit run in which single underscores may
separate digits.  Non-decimal input yields `none` (CPython raises
`ValueError`). -/

def isPySpace (c : Char) : Bool :=
  c = ' ' || c = '\t' || c = '\n' || c = '\r' || c = Char.ofNat 11 || c = Char.ofNat 12

def digitVal (c : Char) : Nat := c.toNat - 48

/-- Digit run after the first digit: digits, with single underscores allowed
between digits. -/
def pyDigitsCore : List Char → Nat → Option Nat
  | [], acc => some acc
  | c :: rest, acc =>
    if c.isDigit then pyDigitsCore rest (acc * 10 + digitVal c)
    else if c = '_' then
      match rest with
      | c2 :: rest2 =>
        if c2.isDigit then pyDigitsCore rest2 (acc * 10 + digitVal c2) else none
      | [] => none
    else none

/-- Nonempty digit run (underscore-separated) starting with a digit. -/
def pyDigits? : List Char → Option Nat
  | c :: rest => if c.isDigit then pyDigitsCore rest (digitVal c) else none
  | [] => none

/-- CPython `int(s)` on an ASCII string, `none` when it would raise. -/
def pyInt? (s : String) : Option Int :=
  let cs := ((s.data.dropWhile isPySpace).reverse.dropWhile isPySpace).reverse
  match cs with
  | [] => none
  | c :: rest =>
    if c = '+' then (pyDigits? rest).map Int.ofNat
    else if c = '-' then (pyDigits? rest).map (fun n => -(Int.ofNat n))
    else (pyDigits? (c :: rest)).map Int.ofNat

/-- The plain decimal value of a digit string (used to state correctness of
`pyInt?` on all-digit input). -/
def decimalVal (cs : List Char) : Nat :=
  cs.foldl (fun a c => a * 10 + digitVal c) 0

/-! ## Data model (`providers/base.py`) -/

/-- `RunMeta` from `providers/base.py`.  The `started_at`/`updated_at`
ISO strings are modelled by their timestamp value in milliseconds. -/
structure RunMeta where
  id : String
  provider : String
  repo : String
  branch : String
  event : String
  actor : Option String
  status : String
  conclusion : Option String
  run_attempt : Nat
  started_at : Int
  updated_at : Int
  head_sha : Option String
  web_url : String
  workflow_id : Option String
deriving Repr, DecidableEq

/-- One step record (a dict with at least `name` and `conclusion`). -/
structure StepMeta where
  name : String
  conclusion : Option String
deriving Repr, DecidableEq

/-- `JobMeta` from `providers/base.py`. -/
structure JobMeta where
  id : String
  name : String
  conclusion : Option String
  started_at : Option Int
  completed_at : Option Int
  steps : List StepMeta
  log_lines : Option (List String) := none
deriving Repr, DecidableEq

/-- One changed-file descriptor of a compare (a dict; `f.get("filename", "")`
is the `filename` field). -/
structure ChangedFile where
  filename : String
deriving Repr, DecidableEq

/-- `CompareMeta` from `providers/base.py`. -/
structure CompareMeta where
  total_commits : Nat
  files : List ChangedFile
deriving Repr, DecidableEq

/-- Python `(x or "").lower()` on an optional string. -/
def pyLowerOpt (s : Option String) : String :=
  pyLower (s.getD "")

/-! ## `utils.py`: URL parsing and statistics -/

/-- `ParsedRunURL` from `utils.py`. -/
structure ParsedRunURL where
  owner : String
  repo : String
  run_id : Int
deriving Repr, DecidableEq

/-- The result of `urllib.parse.urlparse`: the fields of a parsed URL that
`parse_github_run_url` can see.  `query` and `fragment` are carried so that
independence from them is expressible. -/
structure URLParts where
  scheme : String
  netloc : String
  path : String
  query : String
  fragment : String
deriving Repr, DecidableEq

/-- `utils.parse_github_run_url`, with `ValueError` modelled by `.error`. -/
def parse_github_run_url (u : URLParts) : Except String ParsedRunURL :=
  if !(u.netloc == "github.com" || u.netloc == "www.github.com") then
    .error "URL host is not github.com"
  else
    -- parts = [p for p in u.path.split("/") if p]
    let parts := (pySplitChar '/' u.path).filter (fun p => !(pyIsEmpty p))
    -- if len(parts) < 5 or parts[2] != "actions" or parts[3] != "runs"
    match parts with
    | owner :: repo :: p2 :: p3 :: run_id :: _ =>
      if p2 != "actions" || p3 != "runs" then
        .error "Not a GitHub Actions run URL"
      else
        match pyInt? run_id with
        | some n => .ok ⟨owner, repo, n⟩
        | none => .error "invalid literal for int() with base 10"
    | _ => .error "Not a GitHub Actions run URL"

/-- `utils.duration_ms` (timestamps modelled in milliseconds). -/
def duration_ms (start finish : Int) : Int :=
  finish - start

/-- `utils.median_ms`: Python `sorted`, `//` floor division. -/
def median_ms (values : List Int) : Int :=
  if values.isEmpty then 0
  else
    let xs := values.mergeSort (fun a b => decide (a ≤ b))
    let n := xs.length
    if n % 2 = 1 then xs.getD (n / 2) 0
    else Int.fdiv (xs.getD (n / 2 - 1) 0 + xs.getD (n / 2) 0) 2

/-! ## `analysis.py`: failing jobs, suspects, baseline scan, cancellation -/

/-- `analysis.pick_failing_jobs`. -/
def pick_failing_jobs (jobs : List JobMeta) : List JobMeta :=
  jobs.filter (fun j =>
    ["failure", "failed", "cancelled"].contains (pyLowerOpt j.conclusion))

def msgDuration : String :=
  "Duration spike vs median → cache miss, dependency install, or external service slowdown."

def msgLockfile : String :=
  "Dependency/lockfile changes may have broken build or invalidated caches."

def msgWorkflow : String :=
  "Workflow changes detected → runner image, permissions, or cache keys altered."

def msgDockerfile : String :=
  "Dockerfile changes → base image/layer differences causing failures."

def msgDispatch : String :=
  "Manual/dispatch trigger → verify inputs/secrets."

def lock_suffixes : List String :=
  ["package-lock.json", "yarn.lock", "pnpm-lock.yaml", "poetry.lock",
   "requirements.txt", "Pipfile.lock", "go.sum", "Cargo.lock"]

def wf_names : List String :=
  [".github/workflows/", "ci.yml", "ci.yaml",
   ".github/workflows/ci.yaml", ".github/workflows/ci.yml"]

/-- Rule 1 of `analysis.gen_suspects` (duration spike).  `if baseline_p50_ms:`
is Python truthiness: both `None` and `0` skip the rule.
`dur > baseline_p50_ms * 1.5` is stated exactly as `2 * dur > 3 * baseline`. -/
def durationSuspect (run : RunMeta) (baseline_p50_ms : Option Int) : List String :=
  match baseline_p50_ms with
  | some b =>
    if b ≠ 0 ∧ 2 * duration_ms run.started_at run.updated_at > 3 * b then
      [msgDuration]
    else []
  | none => []

/-- Rules 2–4 of `analysis.gen_suspects` (lockfile, workflow change,
container build file), evaluated only under `if cmp:`. -/
def compareSuspects (cmp : Option CompareMeta) : List String :=
  match cmp with
  | some c =>
    let filenames := c.files.map (fun f => f.filename)
    (if filenames.any (fun name => lock_suffixes.any (fun s => pyEndsWith name s)) then
       [msgLockfile]
     else []) ++
    (if filenames.any (fun name => wf_names.any (fun seg => strContains name seg)) then
       [msgWorkflow]
     else []) ++
    (if filenames.any (fun name =>
         pyEndsWith (pyLower name) "dockerfile" ||
           pyEndsWith (pyLower name) ".dockerfile") then
       [msgDockerfile]
     else [])
  | none => []

/-- Rule 5 of `analysis.gen_suspects` (manual/dispatch trigger). -/
def dispatchSuspect (run : RunMeta) : List String :=
  if run.event == "workflow_dispatch" || run.event == "repository_dispatch" then
    [msgDispatch]
  else []

/-- The list of suspect strings appended by `analysis.gen_suspects` before
the final `suspects[:3]` truncation, in rule-evaluation order. -/
def gen_suspects_all (run : RunMeta) (cmp : Option CompareMeta)
    (baseline_p50_ms : Option Int) : List String :=
  durationSuspect run baseline_p50_ms ++ compareSuspects cmp ++ dispatchSuspect run

/-- `analysis.gen_suspects` (the `jobs` argument is unused in the source and
omitted here): the fired rule messages, truncated by `suspects[:3]`. -/
def gen_suspects (run : RunMeta) (cmp : Option CompareMeta)
    (baseline_p50_ms : Option Int) : List String :=
  (gen_suspects_all run cmp baseline_p50_ms).take 3

/-- One iteration of the loop in `analysis.analyze` step 2: append the run's
duration and, when the run started strictly before `cur_start` and no last
success has been found yet (`if ... and not last_success`), record it. -/
def baselineStep (cur_start : Int) (acc : List Int × Option RunMeta)
    (r : RunMeta) : List Int × Option RunMeta :=
  (acc.1 ++ [duration_ms r.started_at r.updated_at],
   if r.started_at < cur_start ∧ acc.2 = none then some r else acc.2)

/-- The loop in `analysis.analyze` step 2 over the historical successful
runs, in provider-returned order. -/
def baselineScan (cur_start : Int) (successes : List RunMeta) :
    List Int × Option RunMeta :=
  successes.foldl (baselineStep cur_start) ([], none)

/-- `baseline_p50 = median_ms(durations) if durations else None`. -/
def baseline_p50 (cur_start : Int) (successes : List RunMeta) : Option Int :=
  let durations := (baselineScan cur_start successes).1
  if durations.isEmpty then none else some (median_ms durations)

def msgCascade : String := "Cancelled after a failure in another job"

def msgTimeout : String := "Timeout reached"

def msgOperation : String := "Operation canceled (manual, concurrency, or timeout)"

/-- The `"\n".join(text_snippets).lower()` text built in `analysis.analyze`
from the failing jobs' extracted log lines (`if j.log_lines:` is Python
truthiness: `None` and `[]` are both skipped). -/
def failingLogText (failing_jobs : List JobMeta) : String :=
  let text_snippets := failing_jobs.foldl
    (fun acc j =>
      match j.log_lines with
      | some ls => if ls.isEmpty then acc else acc ++ ls
      | none => acc)
    []
  pyLower (String.intercalate "\n" text_snippets)

/-- The cancellation-reason inference block of `analysis.analyze` (the value
of `cancellation_reason` after the `if (run.conclusion or "").lower() ==
"cancelled"` block; `None` when the run is not cancelled). -/
def cancellationReason (run : RunMeta) (jobs : List JobMeta)
    (failing_jobs : List JobMeta) : Option String :=
  if pyLowerOpt run.conclusion == "cancelled" then
    let any_failure := jobs.any (fun j =>
      ["failure", "failed"].contains (pyLowerOpt j.conclusion))
    let any_cancel := jobs.any (fun j => pyLowerOpt j.conclusion == "cancelled")
    if any_failure && any_cancel then some msgCascade
    else
      let joined := failingLogText failing_jobs
      if strContains joined "timeout" || strContains joined "timed out" then
        some msgTimeout
      else if strContains joined "the operation was canceled" ||
          strContains joined "the operation was cancelled" then
        some msgOperation
      else none
  else none

/-! ## `utils.extract_failing_step_logs`

The ZIP blob is modelled by its parse outcome (`none` = the ZIP reader
raises on the blob), an entry by its name and raw bytes. -/

structure ZipEntry where
  name : String
  content : List Nat
deriving Repr, DecidableEq

/-- Python regex `$`: matches at the end of the string, or just before a
final newline. -/
def reDollarEnd (r : List Char) : Bool :=
  r = [] || r = ['\n']

/-- Match of `re.compile(rf'^\d+_{re.escape(target)}.txt$', re.IGNORECASE)`
against a whole name: one or more digits (necessarily the maximal leading
digit run, since an underscore must follow), `_`, the escaped target
literally (case-insensitively), one arbitrary character other than a newline
(the unescaped `.` of the source), then `txt` and `$`. -/
def patExactMatch (target : String) (nm : String) : Bool :=
  let cs := (pyLower nm).data
  let t := (pyLower target).data
  let ds := cs.takeWhile Char.isDigit
  let rest := cs.dropWhile Char.isDigit
  !ds.isEmpty &&
    (match rest with
     | c :: r2 =>
       c = '_' && t.isPrefixOf r2 &&
         (match r2.drop t.length with
          | w :: 't' :: 'x' :: 't' :: r5 => w ≠ '\n' && reDollarEnd r5
          | _ => false)
     | [] => false)

/-- Match of `re.compile(rf'^\d+_{re.escape(target)}', re.IGNORECASE).match`:
a prefix consisting of one or more digits, `_`, then the target literally
(case-insensitively). -/
def patPrefixMatch (target : String) (nm : String) : Bool :=
  let cs := (pyLower nm).data
  let t := (pyLower target).data
  let ds := cs.takeWhile Char.isDigit
  let rest := cs.dropWhile Char.isDigit
  !ds.isEmpty &&
    (match rest with
     | c :: r2 => c = '_' && t.isPrefixOf r2
     | [] => false)

/-- The body of the first step-name loop: a flat entry (`'/' not in name`)
matching the step pattern, or a nested entry of exactly two components whose
basename matches it. -/
def stepEntryMatch (step : String) (nm : String) : Bool :=
  (!(pyContainsChar nm '/') && patExactMatch step nm) ||
    (match pySplitChar '/' nm with
     | [_, b] => patExactMatch step b
     | _ => false)

/-- The step-name fallback: case-insensitive substring plus `.txt` suffix. -/
def stepSubstrMatch (step : String) (nm : String) : Bool :=
  strContains (pyLower nm) (pyLower step) && pyEndsWith nm ".txt"

/-- The job-name exact match, applied to the basename of flat or nested
entries alike. -/
def jobExactMatch (job : String) (nm : String) : Bool :=
  patExactMatch job (pyBasename nm)

/-- The job-name fallback: prefix pattern on the basename with spaces
replaced by underscores, `.txt` suffix, and no `"system"` in the name. -/
def jobFallbackMatch (job : String) (nm : String) : Bool :=
  patPrefixMatch (spaceToUnderscore job) (pyBasename nm) &&
    pyEndsWith nm ".txt" && !(strContains (pyLower nm) "system")

/-- The step-name search of `extract_failing_step_logs`: exact pattern in
namelist order, then the substring fallback.  `if failing_step_name:` is a
Python truthiness test, so the empty string behaves like `None`. -/
def stepPhase (names : List String) (s : String) : Option String :=
  if pyIsEmpty s then none
  else (names.find? (stepEntryMatch s)).orElse
    (fun _ => names.find? (stepSubstrMatch s))

/-- The job-name search (`if not log_file and failing_job_name:`): exact
pattern on the basename in namelist order, then the prefix fallback. -/
def jobPhase (names : List String) (job : String) : Option String :=
  if pyIsEmpty job then none
  else (names.find? (jobExactMatch job)).orElse
    (fun _ => names.find? (jobFallbackMatch job))

/-- The log-file resolution of `extract_failing_step_logs` over the archive's
entry names, in namelist order. -/
def locate_log_file (names : List String) (failing_job_name : String)
    (failing_step_name : Option String) : Option String :=
  match failing_step_name with
  | some s =>
    match stepPhase names s with
    | some f => some f
    | none => jobPhase names failing_job_name
  | none => jobPhase names failing_job_name

/-- The `error_patterns` list of the source.  Every pattern is a literal
regex, so `re.search(p, line, re.IGNORECASE)` is case-insensitive substring
containment. -/
def error_patterns : List String :=
  ["error:", "Error:", "ERROR:", "failed:", "Failed:", "FAILED:",
   "fatal:", "Fatal:", "FATAL:", "assertion failed", "AssertionError",
   "Exception:", "Traceback", "exit code", "exit status", "Command failed"]

def isErrorLine (line : String) : Bool :=
  error_patterns.any (fun p => strContains (pyLower line) (pyLower p))

/-- `error_indices`: the indices of the lines matching an error pattern, in
enumeration order. -/
def errorIndices (lines : List String) : List Nat :=
  lines.enum.filterMap (fun p => if isErrorLine p.2 then some p.1 else none)

/-- One iteration of the inner collection loop: skip an index already in
`result_indices`, otherwise record it together with its line. -/
def addWindow (lines : List String) (acc : List Nat × List (Nat × String))
    (idx : Nat) : List Nat × List (Nat × String) :=
  if idx ∈ acc.1 then acc
  else (acc.1 ++ [idx], acc.2 ++ [(idx, lines.getD idx "")])

/-- `range(max(0, err - ctx), min(len(lines), err + ctx + 1))`. -/
def windowRange (len ctx e : Nat) : List Nat :=
  List.range' (e - ctx) (min len (e + ctx + 1) - (e - ctx))

/-- The double collection loop over the error indices: the `result_indices`
set (modelled by the list of recorded indices) and the `result_lines`
accumulator. -/
def collectWindows (lines : List String) (ctx : Nat) (errs : List Nat) :
    List Nat × List (Nat × String) :=
  errs.foldl
    (fun acc e => (windowRange lines.length ctx e).foldl (addWindow lines) acc)
    ([], [])

/-- Python's lexicographic comparison on `(int, str)` pairs, as used by
`result_lines.sort()`. -/
def pairLE (p q : Nat × String) : Bool :=
  decide (p.1 < q.1) || (decide (p.1 = q.1) && charListLE p.2.data q.2.data)

/-- Python `l[-k:]`.  For `k = 0` this is `l[0:]`, the whole list. -/
def pySliceLast {α : Type} (k : Nat) (l : List α) : List α :=
  if k = 0 then l else l.drop (l.length - k)

/-- The windowing core of `extract_failing_step_logs`, applied to the decoded
lines of the located entry. -/
def extractCore (lines : List String) (max_lines ctx : Nat) : List String :=
  let errs := errorIndices lines
  if errs.isEmpty then
    -- lines[-max_lines:] if len(lines) > max_lines else lines
    if lines.length > max_lines then pySliceLast max_lines lines else lines
  else
    let result_lines := ((collectWindows lines ctx errs).2).mergeSort pairLE
    if result_lines.length > max_lines then
      (pySliceLast max_lines result_lines).map Prod.snd
    else result_lines.map Prod.snd

/-- The Unicode replacement character emitted by `errors='replace'`. -/
def replChar : Char := Char.ofNat 0xFFFD

/-- Is a byte a UTF-8 continuation byte? -/
def isContByte (b : Nat) : Bool :=
  0x80 ≤ b ∧ b ≤ 0xBF

/-- Model of `bytes.decode('utf-8', errors='replace')`: standard UTF-8
decoding where every invalid sequence yields U+FFFD instead of raising.
Total by construction (structural recursion on the byte list). -/
def decodeUtf8Replace : List Nat → List Char
  | [] => []
  | b :: rest =>
    if b < 0x80 then Char.ofNat b :: decodeUtf8Replace rest
    else if 0xC2 ≤ b ∧ b ≤ 0xDF then
      match rest with
      | b2 :: rest2 =>
        if isContByte b2 then
          Char.ofNat ((b - 0xC0) * 64 + (b2 - 0x80)) :: decodeUtf8Replace rest2
        else replChar :: decodeUtf8Replace (b2 :: rest2)
      | [] => [replChar]
    else if 0xE0 ≤ b ∧ b ≤ 0xEF then
      match rest with
      | b2 :: b3 :: rest3 =>
        if isContByte b2 && isContByte b3 then
          Char.ofNat ((b - 0xE0) * 4096 + (b2 - 0x80) * 64 + (b3 - 0x80)) ::
            decodeUtf8Replace rest3
        else replChar :: decodeUtf8Replace (b2 :: b3 :: rest3)
      | [b2] => replChar :: decodeUtf8Replace [b2]
      | [] => [replChar]
    else if 0xF0 ≤ b ∧ b ≤ 0xF4 then
      match rest with
      | b2 :: b3 :: b4 :: rest4 =>
        if isContByte b2 && isContByte b3 && isContByte b4 then
          Char.ofNat ((b - 0xF0) * 262144 + (b2 - 0x80) * 4096 +
            (b3 - 0x80) * 64 + (b4 - 0x80)) :: decodeUtf8Replace rest4
        else replChar :: decodeUtf8Replace (b2 :: b3 :: b4 :: rest4)
      | [b2, b3] => replChar :: decodeUtf8Replace [b2, b3]
      | [b2] => replChar :: decodeUtf8Replace [b2]
      | [] => [replChar]
    else replChar :: decodeUtf8Replace rest

/-- Python line-boundary characters recognised by `str.splitlines` (the
ASCII ones plus NEL, LS, PS). -/
def isLineBreakChar (c : Char) : Bool :=
  c = '\n' || c = '\r' || c = Char.ofNat 0x0b || c = Char.ofNat 0x0c ||
    c = Char.ofNat 0x1c || c = Char.ofNat 0x1d || c = Char.ofNat 0x1e ||
    c = Char.ofNat 0x85 || c = Char.ofNat 0x2028 || c = Char.ofNat 0x2029

/-- Helper for `pySplitlines`: `cur` holds the current line reversed. -/
def splitlinesAux : List Char → List Char → List String
  | [], cur => if cur.isEmpty then [] else [String.mk cur.reverse]
  | c :: rest, cur =>
    if c = '\r' then
      match rest with
      | '\n' :: rest2 => String.mk cur.reverse :: splitlinesAux rest2 []
      | c2 :: rest2 => String.mk cur.reverse :: splitlinesAux (c2 :: rest2) []
      | [] => [String.mk cur.reverse]
    else if isLineBreakChar c then String.mk cur.reverse :: splitlinesAux rest []
    else splitlinesAux rest (c :: cur)

/-- Model of Python `str.splitlines()`. -/
def pySplitlines (s : String) : List String :=
  splitlinesAux s.data []

/-- `utils.extract_failing_step_logs`.  The outer `try/except` is modelled by
the `Option` result: a blob the ZIP reader rejects, or an archive in which no
log file is located, yields `none`. -/
def extract_failing_step_logs (logs_zip : Option (List ZipEntry))
    (failing_job_name : String) (failing_step_name : Option String)
    (max_lines : Nat := 50) (context_lines : Nat := 5) :
    Option (List String) :=
  match logs_zip with
  | none => none
  | some entries =>
    match locate_log_file (entries.map ZipEntry.name) failing_job_name
        failing_step_name with
    | none => none
    | some nm =>
      match entries.find? (fun e => e.name == nm) with
      | none => none
      | some e =>
        some (extractCore (pySplitlines (String.mk (decodeUtf8Replace e.content)))
          max_lines context_lines)

/-! ## Specification-side definitions

These follow the wording of the specification (for refinement comparisons
and counterexamples); the definitions above follow the source. -/

/-- Spec side: is line index `i` inside the clipped context window of some
error index in `errs`? -/
def inWindow (len ctx : Nat) (errs : List Nat) (i : Nat) : Bool :=
  errs.any (fun e => e - ctx ≤ i && i < min len (e + ctx + 1))

/-- Spec side: the union of all clipped context windows, deduplicated and
sorted by original line index. -/
def windowIndices (len ctx : Nat) (errs : List Nat) : List Nat :=
  (List.range len).filter (inWindow len ctx errs)

/-- Spec side (claim C1 as written): the unioned, deduplicated, index-sorted
context windows truncated to the *last* `max_lines` lines; the last
`max_lines` lines of the file when no line matches an error marker. -/
def specExtract (lines : List String) (max_lines ctx : Nat) : List String :=
  let errs := errorIndices lines
  if errs.isEmpty then lines.drop (lines.length - max_lines)
  else
    let u := (windowIndices lines.length ctx errs).map (fun i => lines.getD i "")
    u.drop (u.length - max_lines)

/-- Spec side (claim C2 as written): basename match of
`^\d+_<escaped name>\.txt$` case-insensitively, with the dot escaped. -/
def specExactMatch (target : String) (nm : String) : Bool :=
  let cs := (pyLower nm).data
  let t := (pyLower target).data
  let ds := cs.takeWhile Char.isDigit
  let rest := cs.dropWhile Char.isDigit
  !ds.isEmpty &&
    (match rest with
     | c :: r2 => c = '_' && r2 == t ++ ['.', 't', 'x', 't']
     | [] => false)

/-- Spec side: the exact step match in flat or nested layout. -/
def specStepEntryMatch (step : String) (nm : String) : Bool :=
  (!(pyContainsChar nm '/') && specExactMatch step nm) ||
    (match pySplitChar '/' nm with
     | [_, b] => specExactMatch step b
     | _ => false)

/-- Spec side: step search as the claim words it (escaped `\.txt`). -/
def specStepPhase (names : List String) (s : String) : Option String :=
  if pyIsEmpty s then none
  else (names.find? (specStepEntryMatch s)).orElse
    (fun _ => names.find? (stepSubstrMatch s))

/-- Spec side: job search as the claim words it — exact pattern with escaped
`\.txt`, then a plain case-insensitive substring fallback on `.txt` entries
excluding names containing "system". -/
def specJobPhase (names : List String) (job : String) : Option String :=
  if pyIsEmpty job then none
  else (names.find? (fun nm => specExactMatch job (pyBasename nm))).orElse
    (fun _ => names.find? (fun nm =>
      strContains (pyLower nm) (pyLower job) &&
        pyEndsWith nm ".txt" && !(strContains (pyLower nm) "system")))

/-- Spec side (claim C2 as written): the resolution order with an escaped
`\.txt` in the exact patterns and a plain case-insensitive substring match
as the job-name fallback. -/
def locate_spec (names : List String) (failing_job_name : String)
    (failing_step_name : Option String) : Option String :=
  match failing_step_name with
  | some s =>
    match specStepPhase names s with
    | some f => some f
    | none => specJobPhase names failing_job_name
  | none => specJobPhase names failing_job_name

/-- A minimal successful run, parametrised by its start timestamp, used in
concrete instances. -/
def demoRun (start : Int) : RunMeta :=
  ⟨"r", "github", "o/r", "main", "push", none, "completed", some "success",
   1, start, start + 100, none, "", none⟩

/-! # Helper lemmas -/

/-- A whitespace character (in the `int()` sense) is never a decimal digit. -/
theorem isDigit_eq_false_of_isPySpace {c : Char} (h : isPySpace c = true) :
    c.isDigit = false := by
  simp only [isPySpace, Bool.or_eq_true, decide_eq_true_eq] at h
  rcases h with ((((h | h) | h) | h) | h) | h <;> subst h <;> decide

theorem isPySpace_eq_false_of_isDigit {c : Char} (h : c.isDigit = true) :
    isPySpace c = false := by
  cases hs : isPySpace c with
  | false => rfl
  | true => rw [isDigit_eq_false_of_isPySpace hs] at h; cases h

theorem dropWhile_isPySpace_of_digits {cs : List Char}
    (h : ∀ c ∈ cs, c.isDigit) : cs.dropWhile isPySpace = cs := by
  cases cs with
  | nil => rfl
  | cons c rest =>
    rw [List.dropWhile_cons,
      isPySpace_eq_false_of_isDigit (h c (List.mem_cons_self c rest))]
    simp

theorem pyDigitsCore_digits (cs : List Char) (acc : Nat)
    (h : ∀ c ∈ cs, c.isDigit) :
    pyDigitsCore cs acc = some (cs.foldl (fun a c => a * 10 + digitVal c) acc) := by
  induction cs generalizing acc with
  | nil => rfl
  | cons c rest ih =>
    have hc : c.isDigit := h c (List.mem_cons_self c rest)
    rw [pyDigitsCore.eq_def]
    simp only [hc, if_true, List.foldl_cons]
    exact ih _ (fun x hx => h x (List.mem_cons_of_mem c hx))

/-- `pyInt?` on a nonempty all-digit string returns its decimal value. -/
theorem pyInt?_digits {s : String} (hne : s.data ≠ [])
    (hdig : ∀ c ∈ s.data, c.isDigit) :
    pyInt? s = some (Int.ofNat (decimalVal s.data)) := by
  have hrev : ∀ c ∈ s.data.reverse, c.isDigit :=
    fun c hc => hdig c (List.mem_reverse.mp hc)
  unfold pyInt?
  rw [dropWhile_isPySpace_of_digits hdig, dropWhile_isPySpace_of_digits hrev,
    List.reverse_reverse]
  rcases hcs : s.data with _ | ⟨c, rest⟩
  · exact absurd hcs hne
  · have hc : c.isDigit := hdig c (hcs ▸ List.mem_cons_self c rest)
    have hplus : ¬(c = '+') := fun h => by rw [h] at hc; cases hc
    have hminus : ¬(c = '-') := fun h => by rw [h] at hc; cases hc
    simp only [hplus, hminus, if_false]
    rw [pyDigits?.eq_def]
    simp only [hc, if_true]
    rw [pyDigitsCore_digits rest (digitVal c)
      (fun x hx => hdig x (hcs ▸ List.mem_cons_of_mem c hx))]
    simp [decimalVal, List.foldl_cons]

/-- `mergeSort` with the model's comparator computes the unique `≤`-sorted
permutation of an integer list. -/
theorem mergeSort_int_eq {l xs : List Int} (hperm : l.Perm xs)
    (hsort : xs.Sorted (· ≤ ·)) :
    l.mergeSort (fun a b => decide (a ≤ b)) = xs := by
  apply List.eq_of_perm_of_sorted ((List.mergeSort_perm l _).trans hperm) ?_ hsort
  have hs : (l.mergeSort (fun a b => decide (a ≤ b))).Pairwise
      (fun a b : Int => decide (a ≤ b) = true) := by
    apply List.sorted_mergeSort
    · intro a b c hab hbc
      simp only [decide_eq_true_eq] at hab hbc ⊢
      omega
    · intro a b
      simpa using Int.le_total a b
  exact hs.imp (fun h => by simpa using h)

/-- Once a last success is recorded, the scan never replaces it. -/
theorem baselineStep_foldl_some (cur_start : Int) (rs : List RunMeta)
    (ds : List Int) (r0 : RunMeta) :
    (rs.foldl (baselineStep cur_start) (ds, some r0)).2 = some r0 := by
  induction rs generalizing ds with
  | nil => rfl
  | cons r rest ih =>
    simp only [List.foldl_cons, baselineStep]
    simpa using ih (ds ++ [duration_ms r.started_at r.updated_at])

/-- The last-success component of the scan is the first run, in iteration
order, started strictly before `cur_start`. -/
theorem baselineStep_foldl_none (cur_start : Int) (rs : List RunMeta)
    (ds : List Int) :
    (rs.foldl (baselineStep cur_start) (ds, none)).2 =
      rs.find? (fun r => decide (r.started_at < cur_start)) := by
  induction rs generalizing ds with
  | nil => rfl
  | cons r rest ih =>
    simp only [List.foldl_cons, baselineStep]
    by_cases h : r.started_at < cur_start
    · rw [if_pos ⟨h, trivial⟩, List.find?_cons_of_pos _ (by simpa using h)]
      exact baselineStep_foldl_some cur_start rest _ r
    · rw [if_neg (fun hc => h hc.1), List.find?_cons_of_neg _ (by simpa using h)]
      exact ih _

/-- The durations component of the scan is the list of all sampled
durations, in iteration order. -/
theorem baselineStep_foldl_fst (cur_start : Int) (rs : List RunMeta)
    (acc : List Int × Option RunMeta) :
    (rs.foldl (baselineStep cur_start) acc).1 =
      acc.1 ++ rs.map (fun r => duration_ms r.started_at r.updated_at) := by
  induction rs generalizing acc with
  | nil => simp
  | cons r rest ih =>
    simp only [List.foldl_cons, List.map_cons]
    rw [ih]
    simp [baselineStep]

/-! # Claims -/

/-- **C4.** For every sequence of historical successful runs in
provider-returned order and every current run, the last success selected by
the analyzer's scan is the *first* run in iteration order whose start
timestamp is strictly earlier than the current run's start timestamp
(absent if no such run exists) — not the run with the maximum start
timestamp, as the concrete instance shows: with runs started at 5 and 8 and
a current start of 10, the run started at 5 is selected although 8 is the
maximal start below 10. -/
theorem analyze_last_success_claim :
    (∀ (cur_start : Int) (successes : List RunMeta),
      (baselineScan cur_start successes).2 =
        successes.find? (fun r => decide (r.started_at < cur_start))) ∧
    (baselineScan 10 [demoRun 5, demoRun 8]).2 = some (demoRun 5) ∧
    (demoRun 8).started_at = 8 ∧ (demoRun 5).started_at = 5 := by
  refine ⟨fun cur_start successes => ?_, by rfl, rfl, rfl⟩
  exact baselineStep_foldl_none cur_start successes []

/-- **C5.** `median_ms` is invariant under permutation of its input; for a
sorted arrangement `xs` of the input it returns the middle element for odd
length, the floor of the mean of the two middle elements for even length
(Python `//`, i.e. `Int.fdiv`), and it returns 0 on the empty list. -/
theorem median_ms_claim (l xs : List Int) (hperm : l.Perm xs)
    (hsort : xs.Sorted (· ≤ ·)) :
    (∀ l' : List Int, l.Perm l' → median_ms l' = median_ms l) ∧
    (xs.length % 2 = 1 → median_ms l = xs.getD (xs.length / 2) 0) ∧
    (xs ≠ [] → xs.length % 2 = 0 →
      median_ms l =
        Int.fdiv (xs.getD (xs.length / 2 - 1) 0 + xs.getD (xs.length / 2) 0) 2) ∧
    median_ms ([] : List Int) = 0 := by
  have hkey : ∀ m : List Int, m.Perm xs → median_ms m =
      (if xs.isEmpty then 0
       else if xs.length % 2 = 1 then xs.getD (xs.length / 2) 0
       else Int.fdiv (xs.getD (xs.length / 2 - 1) 0 + xs.getD (xs.length / 2) 0) 2) := by
    intro m hm
    have hms : m.mergeSort (fun a b => decide (a ≤ b)) = xs :=
      mergeSort_int_eq hm hsort
    have hlen : m.length = xs.length := hm.length_eq
    have hemp : m.isEmpty = xs.isEmpty := by
      cases hxe : xs.isEmpty <;> cases hme : m.isEmpty <;>
        simp_all [List.isEmpty_iff]
    simp only [median_ms, hms, hemp]
  refine ⟨?_, ?_, ?_, rfl⟩
  · intro l' hperm'
    rw [hkey l' (hperm'.symm.trans hperm), hkey l hperm]
  · intro hodd
    have hne : xs.isEmpty = false := by
      cases xs with
      | nil => simp at hodd
      | cons a t => rfl
    rw [hkey l hperm, hne]
    simp [hodd]
  · intro hne heven
    have hne' : xs.isEmpty = false := by
      cases xs with
      | nil => exact absurd rfl hne
      | cons a t => rfl
    have hodd' : ¬(xs.length % 2 = 1) := by omega
    rw [hkey l hperm, hne']
    simp [hodd']

/-- Witness for C5 at the concrete input `[1, 3, 2]` (sorted: `[1, 2, 3]`). -/
theorem median_ms_claim_witness :
    median_ms [1, 3, 2] = ([1, 2, 3] : List Int).getD (([1, 2, 3] : List Int).length / 2) 0 :=
  (median_ms_claim [1, 3, 2] [1, 2, 3] (by decide)
    (by decide)).2.1 (by decide)

/-- Success case of `parse_github_run_url`, shared by the C8 and C10
theorems: correct host, at least the five expected path segments, and a
decimal run id yield the parsed triple. -/
theorem parse_github_run_url_ok (u : URLParts) (owner repo idStr : String)
    (rest : List String)
    (hhost : u.netloc = "github.com" ∨ u.netloc = "www.github.com")
    (hsplit : (pySplitChar '/' u.path).filter (fun p => !(pyIsEmpty p)) =
      owner :: repo :: "actions" :: "runs" :: idStr :: rest)
    (hne : idStr.data ≠ []) (hdig : ∀ c ∈ idStr.data, c.isDigit) :
    parse_github_run_url u =
      .ok ⟨owner, repo, Int.ofNat (decimalVal idStr.data)⟩ := by
  have hh : (u.netloc == "github.com" || u.netloc == "www.github.com") = true := by
    rcases hhost with h | h <;> simp [h]
  unfold parse_github_run_url
  simp only [hh, Bool.not_true, Bool.false_eq_true, if_false, hsplit]
  simp only [bne_self_eq_false, Bool.or_self, Bool.false_eq_true, if_false]
  rw [pyInt?_digits hne hdig]

/-- Error case of `parse_github_run_url`: wrong host or missing expected
segments always produce an error. -/
theorem parse_github_run_url_error (u : URLParts)
    (h : (u.netloc ≠ "github.com" ∧ u.netloc ≠ "www.github.com") ∨
      ((pySplitChar '/' u.path).filter (fun p => !(pyIsEmpty p))).length < 5 ∨
      ((pySplitChar '/' u.path).filter (fun p => !(pyIsEmpty p))).getD 2 "" ≠ "actions" ∨
      ((pySplitChar '/' u.path).filter (fun p => !(pyIsEmpty p))).getD 3 "" ≠ "runs") :
    ∃ msg, parse_github_run_url u = .error msg := by
  unfold parse_github_run_url
  by_cases hh : (u.netloc == "github.com" || u.netloc == "www.github.com") = true
  · have hshape :
        ((pySplitChar '/' u.path).filter (fun p => !(pyIsEmpty p))).length < 5 ∨
        ((pySplitChar '/' u.path).filter (fun p => !(pyIsEmpty p))).getD 2 "" ≠ "actions" ∨
        ((pySplitChar '/' u.path).filter (fun p => !(pyIsEmpty p))).getD 3 "" ≠ "runs" := by
      rcases h with ⟨h1, h2⟩ | h
      · rcases (by simpa using hh : u.netloc = "github.com" ∨
          u.netloc = "www.github.com") with h' | h'
        · exact absurd h' h1
        · exact absurd h' h2
      · exact h
    simp only [hh, Bool.not_true, Bool.false_eq_true, if_false]
    rcases hp : (pySplitChar '/' u.path).filter (fun p => !(pyIsEmpty p)) with
      _ | ⟨a, _ | ⟨b, _ | ⟨c, _ | ⟨d, _ | ⟨e, rest⟩⟩⟩⟩⟩
    · exact ⟨_, rfl⟩
    · exact ⟨_, rfl⟩
    · exact ⟨_, rfl⟩
    · exact ⟨_, rfl⟩
    · exact ⟨_, rfl⟩
    · rw [hp] at hshape
      have hcd : c ≠ "actions" ∨ d ≠ "runs" := by
        rcases hshape with h5 | hc | hd
        · simp at h5; omega
        · exact Or.inl (by simpa using hc)
        · exact Or.inr (by simpa using hd)
      have hif : (c != "actions" || d != "runs") = true := by
        rcases hcd with h' | h' <;> simp [h']
      exact ⟨"Not a GitHub Actions run URL", by simp [hif]⟩
  · refine ⟨"URL host is not github.com", ?_⟩
    have : (!(u.netloc == "github.com" || u.netloc == "www.github.com")) = true := by
      simp only [Bool.not_eq_true'] at *
      simpa using hh
    rw [this]
    rfl

/-- **C8.** Run-URL parsing returns the correct `(owner, repo, run-id)`
triple for every well-formed GitHub Actions run URL (host `github.com` or
`www.github.com`, path segments `owner/repo/actions/runs/<decimal id>`),
and for every URL whose host is wrong or whose path lacks the expected
segments it produces an error.  The result type `Except` makes a partial
result impossible: the function returns either `.ok` with all three fields
or `.error`. -/
theorem parse_github_run_url_claim :
    (∀ (u : URLParts) (owner repo idStr : String),
      (u.netloc = "github.com" ∨ u.netloc = "www.github.com") →
      (pySplitChar '/' u.path).filter (fun p => !(pyIsEmpty p)) =
        [owner, repo, "actions", "runs", idStr] →
      idStr.data ≠ [] → (∀ c ∈ idStr.data, c.isDigit) →
      parse_github_run_url u =
        .ok ⟨owner, repo, Int.ofNat (decimalVal idStr.data)⟩) ∧
    (∀ u : URLParts,
      ((u.netloc ≠ "github.com" ∧ u.netloc ≠ "www.github.com") ∨
        ((pySplitChar '/' u.path).filter (fun p => !(pyIsEmpty p))).length < 5 ∨
        ((pySplitChar '/' u.path).filter (fun p => !(pyIsEmpty p))).getD 2 "" ≠ "actions" ∨
        ((pySplitChar '/' u.path).filter (fun p => !(pyIsEmpty p))).getD 3 "" ≠ "runs") →
      ∃ msg, parse_github_run_url u = .error msg) :=
  ⟨fun u owner repo idStr hh hs hne hd =>
    parse_github_run_url_ok u owner repo idStr [] hh (by simpa using hs) hne hd,
   parse_github_run_url_error⟩

/-- Witness for C8: the well-formed URL of the repository's test suite and a
wrong-host URL. -/
theorem parse_github_run_url_claim_witness :
    parse_github_run_url
        ⟨"https", "github.com", "/owner/repo/actions/runs/123456789", "", ""⟩ =
      .ok ⟨"owner", "repo", Int.ofNat (decimalVal "123456789".data)⟩ ∧
    (∃ msg, parse_github_run_url
        ⟨"https", "example.com", "/owner/repo/actions/runs/1", "", ""⟩ =
      .error msg) :=
  ⟨parse_github_run_url_claim.1 _ "owner" "repo" "123456789" (Or.inl rfl)
      (by decide) (by decide) (by decide),
   parse_github_run_url_claim.2 _ (Or.inl (by decide))⟩

/-- **C10.** For every URL whose host is `github.com` or `www.github.com`
and whose first five non-empty path segments are owner, repo, `actions`,
`runs` and a decimal run id, parsing returns that triple, ignoring any
additional trailing path segments; and the result never depends on the
query string or fragment. -/
theorem parse_github_run_url_trailing_claim :
    ∀ (u : URLParts) (owner repo idStr : String) (rest : List String)
      (q f : String),
      (u.netloc = "github.com" ∨ u.netloc = "www.github.com") →
      (pySplitChar '/' u.path).filter (fun p => !(pyIsEmpty p)) =
        owner :: repo :: "actions" :: "runs" :: idStr :: rest →
      idStr.data ≠ [] → (∀ c ∈ idStr.data, c.isDigit) →
      parse_github_run_url u =
        .ok ⟨owner, repo, Int.ofNat (decimalVal idStr.data)⟩ ∧
      parse_github_run_url ⟨u.scheme, u.netloc, u.path, q, f⟩ =
        parse_github_run_url u :=
  fun u owner repo idStr rest q f hh hs hne hd =>
    ⟨parse_github_run_url_ok u owner repo idStr rest hh hs hne hd, rfl⟩

/-- Witness for C10: a run-attempt URL with a query and fragment parses to
the same triple as the plain run URL. -/
theorem parse_github_run_url_trailing_claim_witness :
    parse_github_run_url
        ⟨"https", "github.com", "/o/r/actions/runs/123/attempts/2", "x=1", "top"⟩ =
      .ok ⟨"o", "r", Int.ofNat (decimalVal "123".data)⟩ :=
  (parse_github_run_url_trailing_claim
    ⟨"https", "github.com", "/o/r/actions/runs/123/attempts/2", "x=1", "top"⟩
    "o" "r" "123" ["attempts", "2"] "x=1" "top"
    (Or.inl rfl) (by decide) (by decide) (by decide)).1

/-- A run that differs from `demoRun` in both timestamps. -/
def demoRunSpan (s e : Int) : RunMeta :=
  ⟨"r", "github", "o/r", "main", "push", none, "completed", some "success",
   1, s, e, none, "", none⟩

/-- Each conditional rule block is a sublist of its singleton message. -/
theorem if_singleton_sublist (c : Prop) [Decidable c] (m : String)
    (l : List String) (h : [m].Sublist l) :
    (if c then [m] else []).Sublist l := by
  split
  · exact h
  · exact List.nil_sublist l

theorem durationSuspect_sublist (run : RunMeta) (baseline : Option Int) :
    (durationSuspect run baseline).Sublist [msgDuration] := by
  unfold durationSuspect
  cases baseline with
  | none => exact List.nil_sublist _
  | some b => exact if_singleton_sublist _ _ _ (List.Sublist.refl _)

theorem compareSuspects_sublist (cmp : Option CompareMeta) :
    (compareSuspects cmp).Sublist [msgLockfile, msgWorkflow, msgDockerfile] := by
  unfold compareSuspects
  cases cmp with
  | none => exact List.nil_sublist _
  | some c =>
    have h1 := if_singleton_sublist
      ((c.files.map (fun f => f.filename)).any
        (fun name => lock_suffixes.any (fun s => pyEndsWith name s)) = true)
      msgLockfile [msgLockfile] (List.Sublist.refl _)
    have h2 := if_singleton_sublist
      ((c.files.map (fun f => f.filename)).any
        (fun name => wf_names.any (fun seg => strContains name seg)) = true)
      msgWorkflow [msgWorkflow] (List.Sublist.refl _)
    have h3 := if_singleton_sublist
      ((c.files.map (fun f => f.filename)).any
        (fun name => pyEndsWith (pyLower name) "dockerfile" ||
          pyEndsWith (pyLower name) ".dockerfile") = true)
      msgDockerfile [msgDockerfile] (List.Sublist.refl _)
    exact ((h1.append h2).append h3)

theorem dispatchSuspect_sublist (run : RunMeta) :
    (dispatchSuspect run).Sublist [msgDispatch] := by
  unfold dispatchSuspect
  exact if_singleton_sublist _ _ _ (List.Sublist.refl _)

theorem gen_suspects_all_sublist (run : RunMeta) (cmp : Option CompareMeta)
    (baseline : Option Int) :
    (gen_suspects_all run cmp baseline).Sublist
      [msgDuration, msgLockfile, msgWorkflow, msgDockerfile, msgDispatch] :=
  ((durationSuspect_sublist run baseline).append
    (compareSuspects_sublist cmp)).append (dispatchSuspect_sublist run)

/-- **C6.** The suspect generator evaluates its rules in the fixed order
(duration spike, lockfile, workflow change, container build file,
manual/dispatch trigger): the result is always the `take 3` of the fired
rule messages, a sublist of the rule-message list in rule order (so fired
suspects are never reordered or sorted), and has length at most 3; and on a
diff touching `package-lock.json` and `.github/workflows/ci.yml` with no
baseline and a push trigger, exactly the lockfile and workflow suspects
fire, in that order. -/
theorem gen_suspects_claim :
    (∀ (run : RunMeta) (cmp : Option CompareMeta) (baseline : Option Int),
      gen_suspects run cmp baseline = (gen_suspects_all run cmp baseline).take 3 ∧
      (gen_suspects run cmp baseline).Sublist
        [msgDuration, msgLockfile, msgWorkflow, msgDockerfile, msgDispatch] ∧
      (gen_suspects run cmp baseline).length ≤ 3) ∧
    gen_suspects (demoRunSpan 0 100)
        (some ⟨1, [⟨"package-lock.json"⟩, ⟨".github/workflows/ci.yml"⟩]⟩) none =
      [msgLockfile, msgWorkflow] := by
  refine ⟨fun run cmp baseline => ⟨rfl, ?_, ?_⟩, by decide⟩
  · exact (List.take_sublist 3 _).trans (gen_suspects_all_sublist run cmp baseline)
  · simpa [gen_suspects] using Nat.min_le_left 3 (gen_suspects_all run cmp baseline).length

/-- **C3 counterexample.** A baseline median of 0 is produced by a sampled
success of zero duration (so the baseline is *present*), and the run's
duration 1000 exceeds 1.5 × 0, yet no duration-spike suspect is emitted:
`if baseline_p50_ms:` treats the present value 0 like an absent baseline. -/
theorem gen_suspects_zero_baseline_cex :
    baseline_p50 10 [demoRunSpan 0 0] = some 0 ∧
    2 * duration_ms (demoRunSpan 0 1000).started_at (demoRunSpan 0 1000).updated_at >
      3 * 0 ∧
    gen_suspects (demoRunSpan 0 1000) none (some 0) = [] := by
  refine ⟨?_, by decide, by decide⟩
  simp [baseline_p50, baselineScan, baselineStep, duration_ms, median_ms, demoRunSpan]

theorem mem_durationSuspect {x : String} {run : RunMeta} {baseline : Option Int}
    (h : x ∈ durationSuspect run baseline) : x = msgDuration := by
  have := (durationSuspect_sublist run baseline).mem h
  simpa using this

theorem mem_compareSuspects {x : String} {cmp : Option CompareMeta}
    (h : x ∈ compareSuspects cmp) :
    x = msgLockfile ∨ x = msgWorkflow ∨ x = msgDockerfile := by
  have hs := compareSuspects_sublist cmp
  have := hs.mem h
  simpa using this

theorem mem_dispatchSuspect {x : String} {run : RunMeta}
    (h : x ∈ dispatchSuspect run) : x = msgDispatch := by
  have := (dispatchSuspect_sublist run).mem h
  simpa using this

/-- **C3 (amended).** The duration-spike suspect is emitted iff the baseline
median is present *and nonzero* and the run's duration exceeds 1.5 × the
baseline; an absent baseline — and likewise a present baseline equal to 0 —
never fires the rule. -/
theorem gen_suspects_duration_claim :
    ∀ (run : RunMeta) (cmp : Option CompareMeta) (baseline : Option Int),
      msgDuration ∈ gen_suspects run cmp baseline ↔
        ∃ b, baseline = some b ∧ b ≠ 0 ∧
          2 * duration_ms run.started_at run.updated_at > 3 * b := by
  intro run cmp baseline
  constructor
  · intro h
    have hmem : msgDuration ∈ gen_suspects_all run cmp baseline :=
      List.mem_of_mem_take h
    unfold gen_suspects_all at hmem
    rcases List.mem_append.mp hmem with hmem | hmem
    · rcases List.mem_append.mp hmem with hmem | hmem
      · cases baseline with
        | none => simp [durationSuspect] at hmem
        | some b =>
          simp only [durationSuspect] at hmem
          by_cases hc : b ≠ 0 ∧
              2 * duration_ms run.started_at run.updated_at > 3 * b
          · exact ⟨b, rfl, hc⟩
          · rw [if_neg hc] at hmem
            cases hmem
      · rcases mem_compareSuspects hmem with h' | h' | h' <;>
          exact absurd h' (by decide)
    · exact absurd (mem_dispatchSuspect hmem) (by decide)
  · rintro ⟨b, rfl, hb, hgt⟩
    have hdur : durationSuspect run (some b) = [msgDuration] := by
      simp only [durationSuspect]
      rw [if_pos ⟨hb, hgt⟩]
    unfold gen_suspects gen_suspects_all
    rw [hdur]
    simp

/-- **C7.** When the run's conclusion is `"cancelled"`: cascading
cancellation (some sibling job failed AND some sibling job cancelled) takes
priority and yields the cascade message, regardless of the log text;
otherwise the timeout rule is tried on the lower-cased concatenated
failing-job log lines, then the generic cancellation phrase, and otherwise
the reason is absent.  The concrete instance shows the priority: a failure
job whose log contains "timeout" still yields the cascade message. -/
theorem cancellation_reason_claim :
    ∀ (run : RunMeta) (jobs : List JobMeta),
      pyLowerOpt run.conclusion = "cancelled" →
      ((((∃ j ∈ jobs, pyLowerOpt j.conclusion = "failure" ∨
            pyLowerOpt j.conclusion = "failed") ∧
         (∃ j ∈ jobs, pyLowerOpt j.conclusion = "cancelled")) →
        cancellationReason run jobs (pick_failing_jobs jobs) = some msgCascade) ∧
      (¬((∃ j ∈ jobs, pyLowerOpt j.conclusion = "failure" ∨
            pyLowerOpt j.conclusion = "failed") ∧
         (∃ j ∈ jobs, pyLowerOpt j.conclusion = "cancelled")) →
        cancellationReason run jobs (pick_failing_jobs jobs) =
          (if strContains (failingLogText (pick_failing_jobs jobs)) "timeout" ||
              strContains (failingLogText (pick_failing_jobs jobs)) "timed out" then
            some msgTimeout
          else if strContains (failingLogText (pick_failing_jobs jobs))
                "the operation was canceled" ||
              strContains (failingLogText (pick_failing_jobs jobs))
                "the operation was cancelled" then
            some msgOperation
          else none))) := by
  intro run jobs hcanc
  have hbeq : (pyLowerOpt run.conclusion == "cancelled") = true := by
    simp [hcanc]
  have hany1 : (jobs.any (fun j =>
      ["failure", "failed"].contains (pyLowerOpt j.conclusion)) = true) ↔
      (∃ j ∈ jobs, pyLowerOpt j.conclusion = "failure" ∨
        pyLowerOpt j.conclusion = "failed") := by
    rw [List.any_eq_true]
    constructor
    · rintro ⟨j, hj, hc⟩
      exact ⟨j, hj, by simpa using hc⟩
    · rintro ⟨j, hj, hc⟩
      exact ⟨j, hj, by simpa using hc⟩
  have hany2 : (jobs.any
      (fun j => pyLowerOpt j.conclusion == "cancelled") = true) ↔
      (∃ j ∈ jobs, pyLowerOpt j.conclusion = "cancelled") := by
    rw [List.any_eq_true]
    constructor
    · rintro ⟨j, hj, hc⟩
      exact ⟨j, hj, by simpa using hc⟩
    · rintro ⟨j, hj, hc⟩
      exact ⟨j, hj, by simpa using hc⟩
  constructor
  · rintro ⟨h1, h2⟩
    unfold cancellationReason
    rw [if_pos hbeq]
    rw [if_pos ((Bool.and_eq_true ..).mpr ⟨hany1.mpr h1, hany2.mpr h2⟩)]
  · intro hnot
    unfold cancellationReason
    rw [if_pos hbeq]
    rw [if_neg ?hneg]
    case hneg =>
      intro hand
      rcases Bool.and_eq_true .. |>.mp hand with ⟨ha, hb⟩
      exact hnot ⟨hany1.mp ha, hany2.mp hb⟩

/-- A failing job whose extracted log text contains "timeout". -/
def demoFailJob : JobMeta :=
  ⟨"1", "a", some "failure", none, none, [], some ["timeout reached"]⟩

/-- A cancelled sibling job. -/
def demoCancelJob : JobMeta :=
  ⟨"2", "b", some "cancelled", none, none, [], none⟩

/-- A cancelled run. -/
def demoCancelledRun : RunMeta :=
  ⟨"r", "github", "o/r", "main", "push", none, "completed", some "cancelled",
   1, 0, 100, none, "", none⟩

/-- Witness for C7: the cascade message wins even though the failing job's
log text contains "timeout". -/
theorem cancellation_reason_claim_witness :
    cancellationReason demoCancelledRun [demoFailJob, demoCancelJob]
        (pick_failing_jobs [demoFailJob, demoCancelJob]) = some msgCascade ∧
    strContains (failingLogText (pick_failing_jobs [demoFailJob, demoCancelJob]))
      "timeout" = true :=
  ⟨(cancellation_reason_claim demoCancelledRun [demoFailJob, demoCancelJob]
      (by decide)).1
    ⟨⟨demoFailJob, by decide, by decide⟩, ⟨demoCancelJob, by decide, by decide⟩⟩,
   by decide⟩

/-- A first-match chain over the same list only returns elements of it. -/
theorem orElse_find?_mem {names : List String} {p q : String → Bool}
    {nm : String}
    (h : ((names.find? p).orElse (fun _ => names.find? q)) = some nm) :
    nm ∈ names := by
  rcases hfp : names.find? p with _ | x
  · rw [hfp] at h
    simp only [Option.orElse] at h
    exact List.mem_of_find?_eq_some h
  · rw [hfp] at h
    simp only [Option.orElse] at h
    cases h
    exact List.mem_of_find?_eq_some hfp

/-- Whatever entry name the resolution returns is one of the archive's
entry names. -/
theorem jobPhase_mem {names : List String} {job nm : String}
    (h : jobPhase names job = some nm) : nm ∈ names := by
  unfold jobPhase at h
  by_cases hj : pyIsEmpty job
  · rw [if_pos hj] at h
    cases h
  · rw [if_neg hj] at h
    exact orElse_find?_mem h

theorem stepPhase_mem {names : List String} {s nm : String}
    (h : stepPhase names s = some nm) : nm ∈ names := by
  unfold stepPhase at h
  by_cases hs : pyIsEmpty s
  · rw [if_pos hs] at h
    cases h
  · rw [if_neg hs] at h
    exact orElse_find?_mem h

/-- Whatever entry name the resolution returns is one of the archive's
entry names. -/
theorem locate_log_file_mem {names : List String} {job : String}
    {step : Option String} {nm : String}
    (h : locate_log_file names job step = some nm) : nm ∈ names := by
  rcases step with _ | s
  · exact jobPhase_mem h
  · have h' : (match stepPhase names s with
        | some f => some f
        | none => jobPhase names job) = some nm := h
    rcases hsp : stepPhase names s with _ | x
    · rw [hsp] at h'
      exact jobPhase_mem h'
    · rw [hsp] at h'
      cases h'
      exact stepPhase_mem hsp


/-- **C9.** The log-excerpt extractor is total (it is a Lean function into
`Option`, so it can never raise): for every blob — including a corrupt one,
modelled as the `none` parse outcome — and every job and step name, the
result is present iff the blob parses and an entry is located; every parse
failure yields `none`, and a located entry always yields `some` lines, the
decoding of its bytes being total with U+FFFD replacement
(`decodeUtf8Replace`). -/
theorem extract_total_claim :
    ∀ (logs_zip : Option (List ZipEntry)) (job : String) (step : Option String)
      (max_lines ctx : Nat),
      (extract_failing_step_logs logs_zip job step max_lines ctx).isSome ↔
        ∃ entries, logs_zip = some entries ∧
          (locate_log_file (entries.map ZipEntry.name) job step).isSome := by
  intro blob job step maxL ctx
  cases blob with
  | none => simp [extract_failing_step_logs]
  | some entries =>
    unfold extract_failing_step_logs
    cases hloc : locate_log_file (entries.map ZipEntry.name) job step with
    | none => simp [hloc]
    | some nm =>
      have hmem : nm ∈ entries.map ZipEntry.name := locate_log_file_mem hloc
      rcases List.mem_map.mp hmem with ⟨e, he, hname⟩
      rcases hfe : entries.find? (fun x => x.name == nm) with _ | e'
      · have : (entries.find? (fun x => x.name == nm)).isSome :=
          List.find?_isSome.mpr ⟨e, he, by simp [hname]⟩
        rw [hfe] at this
        cases this
      · simp [hloc, hfe]

/-- **C2 counterexample.** Two archives where the code and the claim's
resolution disagree.  First, the source regex `^\d+_<step>.txt$` leaves the
dot before `txt` unescaped, so `1_buildxtxt` is an "exact" step match for
step `build`, while under the claim's `^\d+_<step>\.txt$` no rule matches at
all and the result should be absent.  Second, the job-name fallback in the
source is a prefix match `^\d+_<job>` (with spaces replaced by underscores),
not a substring match: `x_build_extra.txt` contains `build` but is not
located by the code, while the claim's substring fallback would locate it. -/
theorem locate_log_file_cex :
    locate_log_file ["1_buildxtxt"] "deploy" (some "build") = some "1_buildxtxt" ∧
    locate_spec ["1_buildxtxt"] "deploy" (some "build") = none ∧
    locate_log_file ["x_build_extra.txt"] "build" none = none ∧
    locate_spec ["x_build_extra.txt"] "build" none = some "x_build_extra.txt" := by
  exact ⟨by decide, by decide, by decide, by decide⟩

/-- **C2 (amended).** Log-entry resolution proceeds in this order, each
phase taking the first matching entry in archive order: (1) with a nonempty
step name, an entry matching `^\d+_<escaped stepName>.txt$` case-insensitively
— the dot before `txt` being an unescaped wildcard — flat, or nested with
exactly two components; (2) a case-insensitive substring match on `.txt`
entries; (3) with a nonempty job name, the same exact pattern against the
basename; (4) a case-insensitive *prefix* match `^\d+_<job name with spaces
replaced by underscores>` on the basename, restricted to `.txt` entries not
containing "system"; (5) otherwise absent. -/
theorem locate_log_file_claim :
    (∀ (names : List String) (job s : String), s ≠ "" →
      ((∃ nm ∈ names, stepEntryMatch s nm) →
        locate_log_file names job (some s) = names.find? (stepEntryMatch s)) ∧
      ((∀ nm ∈ names, ¬stepEntryMatch s nm) →
        (∃ nm ∈ names, stepSubstrMatch s nm) →
        locate_log_file names job (some s) = names.find? (stepSubstrMatch s)) ∧
      ((∀ nm ∈ names, ¬stepEntryMatch s nm) →
        (∀ nm ∈ names, ¬stepSubstrMatch s nm) →
        locate_log_file names job (some s) = locate_log_file names job none)) ∧
    (∀ (names : List String) (job : String), job ≠ "" →
      ((∃ nm ∈ names, jobExactMatch job nm) →
        locate_log_file names job none = names.find? (jobExactMatch job)) ∧
      ((∀ nm ∈ names, ¬jobExactMatch job nm) →
        locate_log_file names job none = names.find? (jobFallbackMatch job))) ∧
    (∀ (names : List String) (job : String),
      (∀ nm ∈ names, ¬jobExactMatch job nm) →
      (∀ nm ∈ names, ¬jobFallbackMatch job nm) →
      locate_log_file names job none = none) := by
  have hempty : ∀ (s : String), s ≠ "" → pyIsEmpty s = false := by
    intro s hs
    rcases s with ⟨_ | ⟨c, cs⟩⟩
    · exact absurd rfl hs
    · rfl
  refine ⟨fun names job s hs => ?_, fun names job hj => ?_, fun names job h1 h2 => ?_⟩
  · have hloc : ∀ r, stepPhase names s = r →
        locate_log_file names job (some s) =
          (match r with
           | some f => some f
           | none => jobPhase names job) := by
      intro r hr
      show (match stepPhase names s with
        | some f => some f
        | none => jobPhase names job) = _
      rw [hr]
    refine ⟨fun ⟨nm, hnm, hm⟩ => ?_, fun hnone ⟨nm, hnm, hm⟩ => ?_,
      fun hnone hnone2 => ?_⟩
    · rcases hf : names.find? (stepEntryMatch s) with _ | x
      · exact absurd hm ((List.find?_eq_none.mp hf) nm hnm)
      · rw [hloc (some x) (by simp [stepPhase, hempty s hs, hf, Option.orElse])]
    · have hf : names.find? (stepEntryMatch s) = none :=
        List.find?_eq_none.mpr (fun x hx => by simpa using hnone x hx)
      rcases hf2 : names.find? (stepSubstrMatch s) with _ | x
      · exact absurd hm ((List.find?_eq_none.mp hf2) nm hnm)
      · rw [hloc (some x)
          (by simp [stepPhase, hempty s hs, hf, hf2, Option.orElse])]
    · have hf : names.find? (stepEntryMatch s) = none :=
        List.find?_eq_none.mpr (fun x hx => by simpa using hnone x hx)
      have hf2 : names.find? (stepSubstrMatch s) = none :=
        List.find?_eq_none.mpr (fun x hx => by simpa using hnone2 x hx)
      rw [hloc none (by simp [stepPhase, hempty s hs, hf, hf2, Option.orElse])]
      rfl
  · have hjob : locate_log_file names job none = jobPhase names job := rfl
    refine ⟨fun ⟨nm, hnm, hm⟩ => ?_, fun hnone => ?_⟩
    · rcases hf : names.find? (jobExactMatch job) with _ | x
      · exact absurd hm ((List.find?_eq_none.mp hf) nm hnm)
      · rw [hjob]
        simp [jobPhase, hempty job hj, hf, Option.orElse]
    · have hf : names.find? (jobExactMatch job) = none :=
        List.find?_eq_none.mpr (fun x hx => by simpa using hnone x hx)
      rw [hjob]
      simp [jobPhase, hempty job hj, hf, Option.orElse]
  · have hf : names.find? (jobExactMatch job) = none :=
      List.find?_eq_none.mpr (fun x hx => by simpa using h1 x hx)
    have hf2 : names.find? (jobFallbackMatch job) = none :=
      List.find?_eq_none.mpr (fun x hx => by simpa using h2 x hx)
    have hjob : locate_log_file names job none = jobPhase names job := rfl
    rw [hjob]
    by_cases hje : pyIsEmpty job
    · simp [jobPhase, hje]
    · simp [jobPhase, hje, hf, hf2, Option.orElse]

/-- Witness for C2: phase (1) fires on a flat exact match, phase (4) on the
underscored prefix fallback. -/
theorem locate_log_file_claim_witness :
    locate_log_file ["1_build.txt"] "j" (some "build") =
      ["1_build.txt"].find? (stepEntryMatch "build") ∧
    locate_log_file ["0_system.txt", "3_Build_and_test.txt"] "Build and test"
        none =
      ["0_system.txt", "3_Build_and_test.txt"].find?
        (jobFallbackMatch "Build and test") :=
  ⟨(locate_log_file_claim.1 ["1_build.txt"] "j" "build" (by decide)).1
      ⟨"1_build.txt", by decide, by decide⟩,
   (locate_log_file_claim.2.1 ["0_system.txt", "3_Build_and_test.txt"]
      "Build and test" (by decide)).2 (by decide)⟩

/-! ## C1 infrastructure: characterizing the window-collection loop -/

/-- The indices a window pass appends, given the already-seen indices:
each unseen index once, in pass order. -/
def newIndices : List Nat → List Nat → List Nat
  | [], _ => []
  | w :: ws, seen =>
    if w ∈ seen then newIndices ws seen else w :: newIndices ws (seen ++ [w])

/-- One inner window pass appends exactly its unseen indices (and their
lines), in order. -/
theorem windowFold_eq (lines : List String) (ws : List Nat) (seen : List Nat)
    (coll : List (Nat × String)) :
    ws.foldl (addWindow lines) (seen, coll) =
      (seen ++ newIndices ws seen,
       coll ++ (newIndices ws seen).map (fun i => (i, lines.getD i ""))) := by
  induction ws generalizing seen coll with
  | nil => simp [newIndices]
  | cons w ws ih =>
    simp only [List.foldl_cons, addWindow, newIndices]
    by_cases hw : w ∈ seen
    · rw [if_pos hw, if_pos hw, ih]
    · rw [if_neg hw, if_neg hw]
      rw [ih (seen ++ [w]) (coll ++ [(w, lines.getD w "")])]
      simp

theorem mem_newIndices {a : Nat} : ∀ (ws seen : List Nat),
    (a ∈ newIndices ws seen ↔ a ∈ ws ∧ a ∉ seen) := by
  intro ws
  induction ws with
  | nil => intro seen; simp [newIndices]
  | cons w ws ih =>
    intro seen
    unfold newIndices
    by_cases hw : w ∈ seen
    · rw [if_pos hw, ih]
      constructor
      · rintro ⟨h1, h2⟩
        exact ⟨List.mem_cons_of_mem w h1, h2⟩
      · rintro ⟨h1, h2⟩
        rcases List.mem_cons.mp h1 with h | h
        · exact absurd (h ▸ hw) h2
        · exact ⟨h, h2⟩
    · rw [if_neg hw]
      by_cases haw : a = w
      · subst haw
        constructor
        · intro _
          exact ⟨List.mem_cons_self a ws, hw⟩
        · intro _
          exact List.mem_cons_self a (newIndices ws (seen ++ [a]))
      · constructor
        · intro h
          rcases List.mem_cons.mp h with h | h
          · exact absurd h haw
          · rcases (ih _).mp h with ⟨h1, h2⟩
            exact ⟨List.mem_cons_of_mem w h1,
              fun hc => h2 (List.mem_append_left [w] hc)⟩
        · rintro ⟨h1, h2⟩
          rcases List.mem_cons.mp h1 with h | h
          · exact absurd h haw
          · exact List.mem_cons_of_mem w ((ih _).mpr
              ⟨h, fun hc => by
                rcases List.mem_append.mp hc with hc | hc
                · exact h2 hc
                · exact haw (by simpa using hc)⟩)

theorem newIndices_nodup : ∀ (ws seen : List Nat), seen.Nodup →
    (seen ++ newIndices ws seen).Nodup := by
  intro ws
  induction ws with
  | nil => intro seen h; simpa [newIndices] using h
  | cons w ws ih =>
    intro seen h
    unfold newIndices
    by_cases hw : w ∈ seen
    · rw [if_pos hw]
      exact ih seen h
    · rw [if_neg hw]
      have h2 : (seen ++ [w]).Nodup := by
        rw [List.nodup_append]
        refine ⟨h, List.nodup_singleton w, fun a ha hb => ?_⟩
        rw [List.mem_singleton] at hb
        subst hb
        exact hw ha
      have := ih (seen ++ [w]) h2
      rw [List.append_assoc] at this
      exact this

/-- On duplicate-free input the appended indices are just the unseen ones
filtered in order. -/
theorem newIndices_eq_filter : ∀ (ws seen : List Nat), ws.Nodup →
    newIndices ws seen = ws.filter (fun i => decide (i ∉ seen)) := by
  intro ws
  induction ws with
  | nil => intro seen _; rfl
  | cons w ws ih =>
    intro seen hnd
    have hw_not : w ∉ ws := (List.nodup_cons.mp hnd).1
    have hnd' : ws.Nodup := (List.nodup_cons.mp hnd).2
    unfold newIndices
    by_cases hw : w ∈ seen
    · rw [if_pos hw, ih seen hnd', List.filter_cons]
      simp [hw]
    · rw [if_neg hw, ih (seen ++ [w]) hnd', List.filter_cons,
        if_pos (decide_eq_true hw)]
      congr 1
      apply List.filter_congr
      intro x hx
      have hxw : x ≠ w := fun hc => hw_not (hc ▸ hx)
      simp [hxw, List.mem_append]

theorem windowRange_nodup (len ctx e : Nat) : (windowRange len ctx e).Nodup :=
  List.nodup_range' _ _

theorem mem_windowRange {len ctx e i : Nat} :
    i ∈ windowRange len ctx e ↔ e - ctx ≤ i ∧ i < min len (e + ctx + 1) := by
  unfold windowRange
  rw [List.mem_range']
  constructor
  · rintro ⟨j, hj, rfl⟩
    omega
  · rintro ⟨h1, h2⟩
    exact ⟨i - (e - ctx), by omega, by omega⟩

/-- Two strictly sorted lists of naturals with the same members are equal. -/
theorem sorted_mem_eq : ∀ {l₁ l₂ : List Nat}, l₁.Pairwise (· < ·) →
    l₂.Pairwise (· < ·) → (∀ a, a ∈ l₁ ↔ a ∈ l₂) → l₁ = l₂ := by
  intro l₁
  induction l₁ with
  | nil =>
    intro l₂ _ _ hmem
    cases l₂ with
    | nil => rfl
    | cons b t => exact absurd ((hmem b).mpr (List.mem_cons_self b t)) (by simp)
  | cons a t ih =>
    intro l₂ h₁ h₂ hmem
    cases l₂ with
    | nil => exact absurd ((hmem a).mp (List.mem_cons_self a t)) (by simp)
    | cons b t₂ =>
      have hab : a = b := by
        have ha2 : a ∈ b :: t₂ := (hmem a).mp (List.mem_cons_self a t)
        have hb1 : b ∈ a :: t := (hmem b).mpr (List.mem_cons_self b t₂)
        rcases List.mem_cons.mp ha2 with h | h
        · exact h
        · rcases List.mem_cons.mp hb1 with h' | h'
          · exact h'.symm
          · have hba : b < a := (List.pairwise_cons.mp h₂).1 a h
            have hab' : a < b := (List.pairwise_cons.mp h₁).1 b h'
            omega
      subst hab
      have htail : ∀ x, x ∈ t ↔ x ∈ t₂ := by
        intro x
        constructor
        · intro hx
          have hax : a < x := (List.pairwise_cons.mp h₁).1 x hx
          have hx2 : x ∈ a :: t₂ := (hmem x).mp (List.mem_cons_of_mem a hx)
          rcases List.mem_cons.mp hx2 with h | h
          · omega
          · exact h
        · intro hx
          have hax : a < x := (List.pairwise_cons.mp h₂).1 x hx
          have hx1 : x ∈ a :: t := (hmem x).mpr (List.mem_cons_of_mem a hx)
          rcases List.mem_cons.mp hx1 with h | h
          · omega
          · exact h
      rw [ih (List.pairwise_cons.mp h₁).2 (List.pairwise_cons.mp h₂).2 htail]

theorem mem_windowIndices {len ctx : Nat} {errs : List Nat} {i : Nat} :
    i ∈ windowIndices len ctx errs ↔ i < len ∧ inWindow len ctx errs i = true := by
  unfold windowIndices
  rw [List.mem_filter, List.mem_range]

theorem windowIndices_pairwise (len ctx : Nat) (errs : List Nat) :
    (windowIndices len ctx errs).Pairwise (· < ·) :=
  List.Pairwise.sublist (List.filter_sublist _) (List.pairwise_lt_range len)

/-- The Prop form of `inWindow`. -/
theorem inWindow_iff {len ctx : Nat} {errs : List Nat} {i : Nat} :
    inWindow len ctx errs i = true ↔
      ∃ e ∈ errs, e - ctx ≤ i ∧ i < len ∧ i < e + ctx + 1 := by
  unfold inWindow
  rw [List.any_eq_true]
  constructor
  · rintro ⟨e, he, hc⟩
    rcases Bool.and_eq_true .. |>.mp hc with ⟨h1, h2⟩
    simp only [decide_eq_true_eq] at h1 h2
    exact ⟨e, he, h1, by omega, by omega⟩
  · rintro ⟨e, he, h1, h2, h3⟩
    refine ⟨e, he, (Bool.and_eq_true ..).mpr ⟨by simpa using h1, ?_⟩⟩
    simp only [decide_eq_true_eq]
    omega

/-- Appending a strictly larger error index extends the sorted union by the
unseen part of its window, which lies entirely to the right. -/
theorem windowIndices_append (len ctx : Nat) (errs : List Nat) (e : Nat)
    (hlt : ∀ x ∈ errs, x < e) :
    windowIndices len ctx (errs ++ [e]) =
      windowIndices len ctx errs ++
        (windowRange len ctx e).filter
          (fun i => decide (i ∉ windowIndices len ctx errs)) := by
  apply sorted_mem_eq (windowIndices_pairwise ..) ?_ ?_
  · rw [List.pairwise_append]
    refine ⟨windowIndices_pairwise .., ?_, ?_⟩
    · exact List.Pairwise.sublist (List.filter_sublist _)
        (List.pairwise_lt_range' _ _ 1 (by simp))
    · intro a ha b hb
      rcases mem_windowIndices.mp ha with ⟨halen, hain⟩
      rcases inWindow_iff.mp hain with ⟨ea, hea, h1, h2, h3⟩
      rcases List.mem_filter.mp hb with ⟨hbr, hbn⟩
      rcases mem_windowRange.mp hbr with ⟨hb1, hb2⟩
      have hbw : ¬(b < len ∧ inWindow len ctx errs b = true) := by
        simpa [mem_windowIndices] using of_decide_eq_true hbn
      have hblen : b < len := by omega
      have hbnin : ¬(inWindow len ctx errs b = true) := fun hc => hbw ⟨hblen, hc⟩
      have hbea : ¬(ea - ctx ≤ b ∧ b < len ∧ b < ea + ctx + 1) := by
        intro hc
        exact hbnin (inWindow_iff.mpr ⟨ea, hea, hc⟩)
      have heae : ea < e := hlt ea hea
      omega
  · intro a
    rw [List.mem_append, mem_windowIndices, mem_windowIndices, List.mem_filter]
    constructor
    · rintro ⟨halen, hain⟩
      rcases inWindow_iff.mp hain with ⟨ea, hea, h1, h2, h3⟩
      rcases List.mem_append.mp hea with hea | hea
      · exact Or.inl ⟨halen, inWindow_iff.mpr ⟨ea, hea, h1, h2, h3⟩⟩
      · rw [List.mem_singleton] at hea
        subst hea
        by_cases hw : a < len ∧ inWindow len ctx errs a = true
        · exact Or.inl hw
        · refine Or.inr ⟨mem_windowRange.mpr ⟨h1, by omega⟩, ?_⟩
          simp only [decide_eq_true_eq, mem_windowIndices]
          exact hw
    · rintro (⟨halen, hain⟩ | ⟨har, han⟩)
      · rcases inWindow_iff.mp hain with ⟨ea, hea, h1, h2, h3⟩
        exact ⟨halen, inWindow_iff.mpr ⟨ea, List.mem_append_left _ hea, h1, h2, h3⟩⟩
      · rcases mem_windowRange.mp har with ⟨h1, h2⟩
        have halen : a < len := by omega
        refine ⟨halen, inWindow_iff.mpr
          ⟨e, List.mem_append_right _ (List.mem_singleton_self e), h1, halen, by omega⟩⟩

/-- The collection loop produces exactly the sorted, deduplicated union of
the clipped windows, paired with the corresponding lines, provided the
error indices are strictly increasing (as `errorIndices` always is). -/
theorem collectWindows_eq (lines : List String) (ctx : Nat) :
    ∀ (errs : List Nat), errs.Pairwise (· < ·) →
      collectWindows lines ctx errs =
        (windowIndices lines.length ctx errs,
         (windowIndices lines.length ctx errs).map (fun i => (i, lines.getD i ""))) := by
  intro errs
  induction errs using List.reverseRecOn with
  | nil =>
    intro _
    have hwi : windowIndices lines.length ctx [] = [] := by
      simp [windowIndices, inWindow]
    rw [hwi]
    rfl
  | append_singleton errs e ih =>
    intro hsorted
    have hsplit := List.pairwise_append.mp hsorted
    have hlt : ∀ x ∈ errs, x < e := by
      intro x hx
      exact hsplit.2.2 x hx e (List.mem_singleton_self e)
    have ihe := ih hsplit.1
    unfold collectWindows at ihe ⊢
    rw [List.foldl_append, ihe]
    simp only [List.foldl_cons, List.foldl_nil]
    rw [windowFold_eq]
    rw [newIndices_eq_filter (windowRange lines.length ctx e)
      (windowIndices lines.length ctx errs) (windowRange_nodup ..)]
    rw [windowIndices_append lines.length ctx errs e hlt, List.map_append]

theorem enumFrom_fst_ge (n : Nat) (ls : List String) :
    ∀ p ∈ List.enumFrom n ls, n ≤ p.1 := by
  induction ls generalizing n with
  | nil => intro p hp; cases hp
  | cons a as ih =>
    intro p hp
    rw [List.enumFrom_cons] at hp
    rcases List.mem_cons.mp hp with h | h
    · subst h; exact Nat.le_refl n
    · exact Nat.le_of_succ_le (ih (n + 1) p h)

theorem enumFrom_fst_pairwise (n : Nat) (ls : List String) :
    (List.enumFrom n ls).Pairwise (fun p q => p.1 < q.1) := by
  induction ls generalizing n with
  | nil => exact List.Pairwise.nil
  | cons a as ih =>
    rw [List.enumFrom_cons]
    exact List.Pairwise.cons
      (fun q hq => Nat.lt_of_succ_le (enumFrom_fst_ge (n + 1) as q hq))
      (ih (n + 1))

/-- The error indices are strictly increasing, being produced by a single
enumeration pass. -/
theorem errorIndices_pairwise (lines : List String) :
    (errorIndices lines).Pairwise (· < ·) := by
  unfold errorIndices
  rw [List.pairwise_filterMap]
  refine List.Pairwise.imp ?_
    (enumFrom_fst_pairwise 0 lines :
      (lines.enum).Pairwise (fun p q => p.1 < q.1))
  intro p q hpq x hx y hy
  have hxp : x = p.1 := by
    by_cases h : isErrorLine p.2
    · rw [if_pos h] at hx; exact (by simpa using hx : p.1 = x).symm
    · rw [if_neg h] at hx; simp at hx
  have hyq : y = q.1 := by
    by_cases h : isErrorLine q.2
    · rw [if_pos h] at hy; exact (by simpa using hy : q.1 = y).symm
    · rw [if_neg h] at hy; simp at hy
  rw [hxp, hyq]
  exact hpq

/-- The collected pairs are sorted under Python's lexicographic pair order,
since their indices are strictly increasing. -/
theorem pairs_pairwise_pairLE (lines : List String) (U : List Nat)
    (hU : U.Pairwise (· < ·)) :
    (U.map (fun i => (i, lines.getD i ""))).Pairwise
      (fun p q => pairLE p q = true) := by
  rw [List.pairwise_map]
  refine hU.imp ?_
  intro a b hab
  unfold pairLE
  simp [hab]

theorem pySliceLast_map {α β : Type} (f : α → β) (k : Nat) (l : List α) :
    (pySliceLast k l).map f = pySliceLast k (l.map f) := by
  unfold pySliceLast
  by_cases hk : k = 0
  · simp [hk]
  · rw [if_neg hk, if_neg hk, List.map_drop, List.length_map]

theorem pySliceLast_of_le {α : Type} {k : Nat} {l : List α}
    (h : l.length ≤ k) : pySliceLast k l = l := by
  unfold pySliceLast
  by_cases hk : k = 0
  · rw [if_pos hk]
  · rw [if_neg hk, Nat.sub_eq_zero_of_le h, List.drop_zero]

theorem isEmpty_eq_false_of_ne_nil {α : Type} {l : List α} (h : l ≠ []) :
    l.isEmpty = false := by
  cases l with
  | nil => exact absurd rfl h
  | cons a t => rfl

/-- The windowing core, characterized: with at least one error marker the
excerpt is the `[-max_lines:]` slice of the sorted deduplicated union of all
clipped context windows; with none it is the `[-max_lines:]` slice of the
whole file. -/
theorem extractCore_spec (lines : List String) (max_lines ctx : Nat) :
    (errorIndices lines ≠ [] →
      extractCore lines max_lines ctx =
        pySliceLast max_lines
          ((windowIndices lines.length ctx (errorIndices lines)).map
            (fun i => lines.getD i ""))) ∧
    (errorIndices lines = [] →
      extractCore lines max_lines ctx = pySliceLast max_lines lines) := by
  constructor
  · intro hne
    simp only [extractCore]
    rw [isEmpty_eq_false_of_ne_nil hne]
    simp only [Bool.false_eq_true, if_false]
    rw [collectWindows_eq lines ctx (errorIndices lines) (errorIndices_pairwise lines)]
    rw [List.mergeSort_of_sorted
      (pairs_pairwise_pairLE lines _ (windowIndices_pairwise ..))]
    have hmap : ((windowIndices lines.length ctx (errorIndices lines)).map
        (fun i => (i, lines.getD i ""))).map Prod.snd =
        (windowIndices lines.length ctx (errorIndices lines)).map
          (fun i => lines.getD i "") := by
      rw [List.map_map]
      rfl
    by_cases hlen : ((windowIndices lines.length ctx (errorIndices lines)).map
        (fun i => (i, lines.getD i ""))).length > max_lines
    · rw [if_pos hlen, pySliceLast_map, hmap]
    · rw [if_neg hlen, hmap]
      rw [pySliceLast_of_le]
      rw [List.length_map]
      rw [List.length_map] at hlen
      omega
  · intro hnil
    simp only [extractCore]
    rw [hnil]
    simp only [List.isEmpty_nil, if_true]
    by_cases hlen : lines.length > max_lines
    · rw [if_pos hlen]
    · rw [if_neg hlen, pySliceLast_of_le (by omega)]

/-- **C1 counterexample.** With `max_lines = 0` the claim's truncation rule
("keep only the last `maxLines` lines when the union exceeds `maxLines`")
demands an empty excerpt, but the Python slice `result_lines[-0:]` is the
whole list, so the code returns the full window: on a one-line log whose
line matches an error marker the code yields that line while the claim-side
`specExtract` yields `[]`. -/
theorem extract_windows_cex :
    extract_failing_step_logs
        (some [⟨"1_build.txt", [101, 114, 114, 111, 114, 58, 32, 120]⟩])
        "b" (some "build") 0 5 = some ["error: x"] ∧
    specExtract ["error: x"] 0 5 = [] := by
  constructor
  · have hdec : pySplitlines (String.mk (decodeUtf8Replace
        [101, 114, 114, 111, 114, 58, 32, 120])) = ["error: x"] := by decide
    have hcore : extractCore ["error: x"] 0 5 = ["error: x"] := by
      rw [(extractCore_spec ["error: x"] 0 5).1 (by decide)]
      decide
    calc extract_failing_step_logs
          (some [⟨"1_build.txt", [101, 114, 114, 111, 114, 58, 32, 120]⟩])
          "b" (some "build") 0 5
        = some (extractCore (pySplitlines (String.mk (decodeUtf8Replace
            [101, 114, 114, 111, 114, 58, 32, 120]))) 0 5) := rfl
      _ = some (extractCore ["error: x"] 0 5) := by rw [hdec]
      _ = some ["error: x"] := by rw [hcore]
  · decide

/-- **C1 (amended).** For a located entry, the excerpt is the union of the
clipped `context_lines` windows around the error-marker lines, deduplicated
and sorted by original line index, then sliced with Python's
`[-max_lines:]` — the last `max_lines` lines when the union exceeds
`max_lines` and `max_lines ≥ 1`, the whole union when `max_lines = 0`; with
no marker anywhere, the `[-max_lines:]` slice of the whole file.  For a log
with exactly one error line at index `e`, at least 5 benign lines on each
side, `context_lines = 5` and `max_lines = 50`, the excerpt has exactly
11 lines.  The conjunct over archives ties `extract_failing_step_logs` to
this windowing core for every located entry. -/
theorem extract_windows_claim (lines : List String) (max_lines ctx : Nat) :
    (errorIndices lines ≠ [] →
      extractCore lines max_lines ctx =
        pySliceLast max_lines
          ((windowIndices lines.length ctx (errorIndices lines)).map
            (fun i => lines.getD i ""))) ∧
    (errorIndices lines = [] →
      extractCore lines max_lines ctx = pySliceLast max_lines lines) ∧
    (∀ e, errorIndices lines = [e] → 5 ≤ e → e + 6 ≤ lines.length →
      (extractCore lines 50 5).length = 11) ∧
    (∀ (entries : List ZipEntry) (job : String) (step : Option String)
        (nm : String),
      locate_log_file (entries.map ZipEntry.name) job step = some nm →
      ∃ en, entries.find? (fun x => x.name == nm) = some en ∧
        extract_failing_step_logs (some entries) job step max_lines ctx =
          some (extractCore
            (pySplitlines (String.mk (decodeUtf8Replace en.content)))
            max_lines ctx)) := by
  refine ⟨(extractCore_spec lines max_lines ctx).1,
    (extractCore_spec lines max_lines ctx).2, ?_, ?_⟩
  · intro e he h5 hlen
    have h1 := (extractCore_spec lines 50 5).1 (by rw [he]; exact List.cons_ne_nil e [])
    rw [he] at h1
    have hU : windowIndices lines.length 5 [e] = List.range' (e - 5) 11 := by
      apply sorted_mem_eq (windowIndices_pairwise ..)
        (List.pairwise_lt_range' _ _ 1 (by simp)) ?_
      intro a
      rw [mem_windowIndices, inWindow_iff, List.mem_range']
      constructor
      · rintro ⟨halen, e', he', h1', h2', h3'⟩
        rw [List.mem_singleton] at he'
        rw [he'] at h1' h3'
        exact ⟨a - (e - 5), by omega, by omega⟩
      · rintro ⟨j, hj, rfl⟩
        exact ⟨by omega, e, List.mem_singleton_self e, by omega, by omega, by omega⟩
    rw [h1, hU, pySliceLast_of_le (by rw [List.length_map, List.length_range']; omega),
      List.length_map, List.length_range']
  · intro entries job step nm hloc
    have hmem : nm ∈ entries.map ZipEntry.name := locate_log_file_mem hloc
    rcases List.mem_map.mp hmem with ⟨e, he, hname⟩
    rcases hfe : entries.find? (fun x => x.name == nm) with _ | en
    · have hsome : (entries.find? (fun x => x.name == nm)).isSome :=
        List.find?_isSome.mpr ⟨e, he, by simp [hname]⟩
      rw [hfe] at hsome
      cases hsome
    · refine ⟨en, hfe, ?_⟩
      unfold extract_failing_step_logs
      simp [hloc, hfe]

/-- A 21-line log with a single error line at index 10. -/
def demoLines : List String :=
  List.replicate 10 "ok" ++ ["error: boom"] ++ List.replicate 10 "ok"

/-- Witness for C1: the 11-line scenario at a concrete log. -/
theorem extract_windows_claim_witness :
    (extractCore demoLines 50 5).length = 11 :=
  (extract_windows_claim demoLines 50 5).2.2.1 10 (by decide) (by decide) (by decide)

end CIDoctor
